import Mathlib

/-!
Verification of the Normalization, Scoring, and Clustering Engine.

This file is a shallow embedding of the engine's algorithmic core:
the per-record scoring functions and text cleaner of
`NormalizationService` (src/src/services/normalization.service.ts) and
the fingerprinting, grouping, common-tag voting, trend-score and growth
computations of `ClusteringService` (src/unnamed/part_018).

Modelling conventions: JavaScript numbers are modelled by `ℕ`/`ℤ` for
integer-valued counters and scores and by `ℚ` for the intermediate real
arithmetic (division, averages); `Math.floor` is `Int.floor`,
`Math.min`/`Math.max` are `min`/`max`.  Strings are Lean `String`s
(lists of characters); the database rows touched by the clustering
step are explicit structures, and the Prisma row id of a cluster is
abstracted by its unique `clusterKey`.
-/

/-- Engagement counters and media of a scraped post, the fields of the
`scrapedPost` row that the scoring functions read. -/
structure ScrapedPost where
  likes : ℕ
  comments : ℕ
  shares : ℕ
  views : ℕ
  mediaUrls : List String
deriving DecidableEq

/-- Substring test on character lists: does `pat` occur as a prefix of `l`? -/
def matchesAt : List Char → List Char → Bool
  | [], _ => true
  | _ :: _, [] => false
  | p :: ps, c :: cs => p == c && matchesAt ps cs

/-- Substring containment on character lists (`String.prototype.includes`). -/
def containsSub (pat : List Char) : List Char → Bool
  | [] => matchesAt pat []
  | c :: cs => matchesAt pat (c :: cs) || containsSub pat cs

/-- Model of `s.includes(needle)` from JavaScript. -/
def strIncludes (s needle : String) : Bool :=
  containsSub needle.data s.data

/-- Model of `NormalizationService.calculateViralityScore`:
`engagement = likes + comments*2 + shares*3`, `views || engagement*10`
(`0` is falsy), rate guard for zero views, `Math.max(0, Math.min(100,
Math.floor(rate * 1000)))`. -/
def calculateViralityScore (p : ScrapedPost) : ℤ :=
  let engagement : ℕ := p.likes + p.comments * 2 + p.shares * 3
  let views : ℕ := if p.views = 0 then engagement * 10 else p.views
  let engagementRate : ℚ := if 0 < views then ((engagement : ℚ) / (views : ℚ)) * 100 else 0
  max 0 (min 100 ⌊engagementRate * 1000⌋)

/-- The virality formula exactly as the specification words it:
`engagement = likes + 2*comments + 3*shares`; `views' = views if
views > 0 else engagement*10`; `rate = engagement/views'*100`;
`score = floor(rate * 1000)` clamped to `[0,100]`.  (In `ℚ` a division
by zero yields `0`, which is the only case where the guardless formula
is read off the spec.) -/
def specViralityScore (p : ScrapedPost) : ℤ :=
  let engagement : ℕ := p.likes + 2 * p.comments + 3 * p.shares
  let views : ℕ := if 0 < p.views then p.views else engagement * 10
  let rate : ℚ := (engagement : ℚ) / (views : ℚ) * 100
  min 100 (max 0 ⌊rate * 1000⌋)

/-- Model of `NormalizationService.calculateRelevanceScore`: base 50, +10 per
hashtag containing "fashion"/"style"/"ootd", +5 per keyword, +10 if the
cleaned text is longer than 50 characters, clamped. -/
def calculateRelevanceScore (text : String) (hashtags keywords : List String) : ℤ :=
  let fashionHashtags := hashtags.filter (fun tag =>
    strIncludes tag "fashion" || strIncludes tag "style" || strIncludes tag "ootd")
  let score1 : ℤ := 50 + fashionHashtags.length * 10
  let score2 : ℤ := score1 + keywords.length * 5
  let score3 : ℤ := if 50 < text.length then score2 + 10 else score2
  min 100 (max 0 score3)

/-- Model of `NormalizationService.calculateQualityScore`: base 50, +20 if any
media URL, +15 if text length in (30, 500), +10 if likes > 100, +5 if
comments > 10, clamped. -/
def calculateQualityScore (p : ScrapedPost) (text : String) : ℤ :=
  let s1 : ℤ := if 0 < p.mediaUrls.length then 50 + 20 else 50
  let s2 : ℤ := if 30 < text.length ∧ text.length < 500 then s1 + 15 else s1
  let s3 : ℤ := if 100 < p.likes then s2 + 10 else s2
  let s4 : ℤ := if 10 < p.comments then s3 + 5 else s3
  min 100 (max 0 s4)

/-- The whitespace class of JavaScript regular expressions (`\s`) and of
`String.prototype.trim`: ASCII whitespace, NBSP, BOM, and the Unicode
space separators and line terminators. -/
def jsWhitespace (c : Char) : Bool :=
  c == ' ' || c == '\t' || c == '\n' || c == '\r' ||
  c.toNat == 11 || c.toNat == 12 || c.toNat == 160 ||
  c.toNat == 5760 || (8192 ≤ c.toNat && c.toNat ≤ 8202) ||
  c.toNat == 8232 || c.toNat == 8233 || c.toNat == 8239 ||
  c.toNat == 8287 || c.toNat == 12288 || c.toNat == 65279

/-- Length of the match of `/https?:\/\/[^\s]+/` anchored at the head of
`l`, or `0` when there is none.  The alternative with `s` is tried first
(greedy `s?`); when the literal part matches but no non-whitespace
character follows, backtracking cannot succeed the other way either
(the character after `http` differs), so the whole position fails. -/
def urlMatchLen (l : List Char) : ℕ :=
  if matchesAt "https://".data l then
    let tok := (l.drop 8).takeWhile (fun c => !jsWhitespace c)
    if tok.length = 0 then 0 else 8 + tok.length
  else if matchesAt "http://".data l then
    let tok := (l.drop 7).takeWhile (fun c => !jsWhitespace c)
    if tok.length = 0 then 0 else 7 + tok.length
  else 0

/-- Model of `text.replace(/https?:\/\/[^\s]+/g, '')`: left-to-right removal of
every match.  The first argument bounds the recursion depth; every step
consumes at least one character, so the list length is a sufficient
bound. -/
def removeUrlsGo : ℕ → List Char → List Char
  | 0, l => l
  | _ + 1, [] => []
  | fuel + 1, c :: cs =>
    if urlMatchLen (c :: cs) = 0 then c :: removeUrlsGo fuel cs
    else removeUrlsGo fuel ((c :: cs).drop (urlMatchLen (c :: cs)))

/-- URL removal on a full character list. -/
def removeUrls (l : List Char) : List Char := removeUrlsGo l.length l

/-- Model of `text.replace(/\s+/g, ' ')`: each maximal whitespace run becomes a
single space (fuel-bounded as in `removeUrlsGo`). -/
def collapseWsGo : ℕ → List Char → List Char
  | 0, l => l
  | _ + 1, [] => []
  | fuel + 1, c :: cs =>
    if jsWhitespace c then ' ' :: collapseWsGo fuel (cs.dropWhile jsWhitespace)
    else c :: collapseWsGo fuel cs

/-- Whitespace collapsing on a full character list. -/
def collapseWs (l : List Char) : List Char := collapseWsGo l.length l

/-- Model of `text.replace(/\n+/g, '\n')`: each maximal newline run becomes a
single newline (fuel-bounded as in `removeUrlsGo`). -/
def collapseNlGo : ℕ → List Char → List Char
  | 0, l => l
  | _ + 1, [] => []
  | fuel + 1, c :: cs =>
    if c == '\n' then '\n' :: collapseNlGo fuel (cs.dropWhile (· == '\n'))
    else c :: collapseNlGo fuel cs

/-- Newline collapsing on a full character list. -/
def collapseNl (l : List Char) : List Char := collapseNlGo l.length l

/-- Model of `String.prototype.trim`: drop leading and trailing whitespace. -/
def trimChars (l : List Char) : List Char :=
  ((l.dropWhile jsWhitespace).reverse.dropWhile jsWhitespace).reverse

/-- Model of `NormalizationService.cleanText`: strip URLs, collapse whitespace,
collapse newlines, trim. -/
def cleanText (text : String) : String :=
  ⟨trimChars (collapseNl (collapseWs (removeUrls text.data)))⟩

/-- No two adjacent characters are both whitespace. -/
def noDoubleWs : List Char → Bool
  | [] => true
  | [_] => true
  | a :: b :: t => !(jsWhitespace a && jsWhitespace b) && noDoubleWs (b :: t)

/-- No suffix begins with a URL match (`https?://` followed by at least
one non-whitespace character). -/
def noUrl : List Char → Bool
  | [] => true
  | c :: cs => (urlMatchLen (c :: cs) == 0) && noUrl cs

/-- UTF-8 encoding of one character. -/
def utf8Bytes (c : Char) : List ℕ :=
  let n := c.toNat
  if n < 128 then [n]
  else if n < 2048 then [192 + n / 64, 128 + n % 64]
  else if n < 65536 then [224 + n / 4096, 128 + n / 64 % 64, 128 + n % 64]
  else [240 + n / 262144, 128 + n / 4096 % 64, 128 + n / 64 % 64, 128 + n % 64]

/-- UTF-8 bytes of a string (node's `crypto` hashes the UTF-8 encoding
of the string passed to `update`). -/
def strBytes (s : String) : List ℕ :=
  (s.data.map utf8Bytes).flatten

/-- Truncation to 32 bits. -/
def w32 (n : ℕ) : ℕ := n % 4294967296

/-- Bitwise complement on 32-bit values. -/
def not32 (n : ℕ) : ℕ := 4294967295 - n

/-- 32-bit left rotation by `s` bits. -/
def rotl32 (x s : ℕ) : ℕ := x % 2 ^ (32 - s) * 2 ^ s + x / 2 ^ (32 - s)

/-- The 64 MD5 sine-table constants `floor(2^32 * abs(sin(i+1)))`. -/
def md5K : List ℕ :=
  [3614090360, 3905402710, 606105819, 3250441966, 4118548399, 1200080426,
   2821735955, 4249261313, 1770035416, 2336552879, 4294925233, 2304563134,
   1804603682, 4254626195, 2792965006, 1236535329, 4129170786, 3225465664,
   643717713, 3921069994, 3593408605, 38016083, 3634488961, 3889429448,
   568446438, 3275163606, 4107603335, 1163531501, 2850285829, 4243563512,
   1735328473, 2368359562, 4294588738, 2272392833, 1839030562, 4259657740,
   2763975236, 1272893353, 4139469664, 3200236656, 681279174, 3936430074,
   3572445317, 76029189, 3654602809, 3873151461, 530742520, 3299628645,
   4096336452, 1126891415, 2878612391, 4237533241, 1700485571, 2399980690,
   4293915773, 2240044497, 1873313359, 4264355552, 2734768916, 1309151649,
   4149444226, 3174756917, 718787259, 3951481745]

/-- The 64 MD5 per-round left-rotation amounts. -/
def md5S : List ℕ :=
  [7, 12, 17, 22, 7, 12, 17, 22, 7, 12, 17, 22, 7, 12, 17, 22,
   5, 9, 14, 20, 5, 9, 14, 20, 5, 9, 14, 20, 5, 9, 14, 20,
   4, 11, 16, 23, 4, 11, 16, 23, 4, 11, 16, 23, 4, 11, 16, 23,
   6, 10, 15, 21, 6, 10, 15, 21, 6, 10, 15, 21, 6, 10, 15, 21]

/-- One MD5 round on state `(a, b, c, d)` with message words `m`. -/
def md5Round (m : List ℕ) (st : ℕ × ℕ × ℕ × ℕ) (i : ℕ) : ℕ × ℕ × ℕ × ℕ :=
  let a := st.1
  let b := st.2.1
  let c := st.2.2.1
  let d := st.2.2.2
  let f :=
    if i < 16 then (b.land c).lor ((not32 b).land d)
    else if i < 32 then (d.land b).lor ((not32 d).land c)
    else if i < 48 then (b.xor c).xor d
    else c.xor (b.lor (not32 d))
  let g :=
    if i < 16 then i
    else if i < 32 then (5 * i + 1) % 16
    else if i < 48 then (3 * i + 5) % 16
    else 7 * i % 16
  let f2 := w32 (f + a + md5K.getD i 0 + m.getD g 0)
  (d, w32 (b + rotl32 f2 (md5S.getD i 0)), b, c)

/-- Compress one 16-word block into the running MD5 state. -/
def md5Block (st : ℕ × ℕ × ℕ × ℕ) (m : List ℕ) : ℕ × ℕ × ℕ × ℕ :=
  let r := (List.range 64).foldl (md5Round m) st
  (w32 (st.1 + r.1), w32 (st.2.1 + r.2.1), w32 (st.2.2.1 + r.2.2.1),
    w32 (st.2.2.2 + r.2.2.2))

/-- MD5 padding: a `0x80` byte, zeros to 56 mod 64, then the 8-byte
little-endian bit length. -/
def md5Pad (msg : List ℕ) : List ℕ :=
  let len := msg.length
  let z := (120 - (len + 1) % 64) % 64
  msg ++ 128 :: List.replicate z 0 ++
    (List.range 8).map (fun i => 8 * len / 2 ^ (8 * i) % 256)

/-- Split a byte list into 64-byte chunks; the first argument bounds
the recursion depth (each step consumes at least one byte, so the list
length is a sufficient bound). -/
def chunks64With : ℕ → List ℕ → List (List ℕ)
  | 0, _ => []
  | _ + 1, [] => []
  | fuel + 1, b :: rest => (b :: rest).take 64 :: chunks64With fuel ((b :: rest).drop 64)

/-- Split a byte list into 64-byte chunks. -/
def chunks64 (l : List ℕ) : List (List ℕ) := chunks64With l.length l

/-- Little-endian 32-bit words of one 64-byte chunk. -/
def leWords (chunk : List ℕ) : List ℕ :=
  (List.range 16).map (fun j =>
    chunk.getD (4 * j) 0 + 256 * chunk.getD (4 * j + 1) 0 +
      65536 * chunk.getD (4 * j + 2) 0 + 16777216 * chunk.getD (4 * j + 3) 0)

/-- Lower-case hexadecimal digit. -/
def hexDigit (n : ℕ) : Char :=
  if n < 10 then Char.ofNat (48 + n) else Char.ofNat (87 + n)

/-- Two-digit hexadecimal rendering of a byte. -/
def byteHex (b : ℕ) : List Char := [hexDigit (b / 16), hexDigit (b % 16)]

/-- Little-endian bytes of a 32-bit word. -/
def wordBytes (wd : ℕ) : List ℕ :=
  [wd % 256, wd / 256 % 256, wd / 65536 % 256, wd / 16777216 % 256]

/-- The MD5 hex digest of a string, as
`crypto.createHash('md5').update(s).digest('hex')`. -/
def md5Hex (s : String) : String :=
  let blocks := (chunks64 (md5Pad (strBytes s))).map leWords
  let r := blocks.foldl md5Block (1732584193, 4023233417, 2562383102, 271733878)
  ⟨(([r.1, r.2.1, r.2.2.1, r.2.2.2].map wordBytes).flatten.map byteHex).flatten⟩

/-- A normalized post row as read by the clustering service: salient
tags, timestamp (milliseconds since the epoch, `Date.getTime()`), the
scores used for the cluster trend score, and the nullable cluster
assignment. -/
structure NPost where
  id : ℕ
  hashtags : List String
  keywords : List String
  postedAt : ℤ
  viralityScore : ℤ
  relevanceScore : ℤ
  clusterId : Option String
deriving DecidableEq

/-- A `trendCluster` row; the Prisma row id is abstracted by the unique
`clusterKey` fingerprint (posts are assigned by key). -/
structure TrendCluster where
  clusterKey : String
  commonHashtags : List String
  commonKeywords : List String
  title : String
  aiInsight : String
  trendScore : ℤ
  growthPercentage : ℤ
  firstSeenAt : ℤ
  lastSeenAt : ℤ
  isActive : Bool
deriving DecidableEq

/-- Lexicographic comparison of character lists by code point: the JS
default sort comparator (which compares code-unit sequences; the two
agree on the basic multilingual plane). -/
def charListLt : List Char → List Char → Bool
  | _, [] => false
  | [], _ :: _ => true
  | a :: as, b :: bs =>
    if a < b then true else if b < a then false else charListLt as bs

/-- Boolean string-below test derived from `charListLt`. -/
def strLeB (a b : String) : Bool := !(charListLt b.data a.data)

/-- The sort order of the JS default comparator as a relation. -/
def strLeP (a b : String) : Prop := strLeB a b = true

instance : DecidableRel strLeP := fun a b =>
  inferInstanceAs (Decidable (strLeB a b = true))

/-- Model of `ClusteringService.generateClusterKey`: take the FIRST 3 hashtags,
sort those lexicographically, likewise the first 3 keywords, join them
all with underscores and hash with MD5.  In the source the slice
happens before the sort: `hashtagArray.slice(0, 3).sort()`. -/
def generateClusterKey (hashtags keywords : List String) : String :=
  let topHashtags := (hashtags.take 3).insertionSort strLeP
  let topKeywords := (keywords.take 3).insertionSort strLeP
  md5Hex (String.intercalate "_" (topHashtags ++ topKeywords))

/-- Model of `counts.set(item, (counts.get(item) || 0) + 1)` on a JS `Map`
modelled as an insertion-ordered association list: an existing key
keeps its position, a new key is appended. -/
def bump : List (String × ℕ) → String → List (String × ℕ)
  | [], item => [(item, 1)]
  | (k, v) :: rest, item =>
    if k = item then (k, v + 1) :: rest else (k, v) :: bump rest item

/-- Model of `[...new Set(arr)]`: deduplication keeping first occurrences. -/
def dedupFirst (l : List String) : List String :=
  l.foldl (fun acc x => if x ∈ acc then acc else acc ++ [x]) []

/-- Value of a key in the association list (0 when absent). -/
def lookupCount : List (String × ℕ) → String → ℕ
  | [], _ => 0
  | (k, v) :: rest, item => if k = item then v else lookupCount rest item

/-- The occurrence-count map of `ClusteringService.findCommonElements`:
each member array contributes at most once per distinct tag. -/
def tagCounts (arrays : List (List String)) : List (String × ℕ) :=
  arrays.foldl (fun m arr => (dedupFirst arr).foldl bump m) []

/-- Model of `ClusteringService.findCommonElements`: keep tags whose count is at
least `Math.ceil(arrays.length * 0.3)`, sort by descending count
(`.sort((a, b) => b[1] - a[1])`, a stable sort), take the first 5. -/
def findCommonElements (arrays : List (List String)) : List String :=
  if arrays = [] then []
  else
    let threshold : ℕ := ⌈(arrays.length : ℚ) * 0.3⌉₊
    ((((tagCounts arrays).filter (fun p => threshold ≤ p.2)).mergeSort
        (fun a b => b.2 ≤ a.2)).map Prod.fst).take 5

/-- Number of member arrays containing the tag; the count that
`tagCounts` computes, written as the specification describes it. -/
def memberCount (arrays : List (List String)) (tag : String) : ℕ :=
  (arrays.filter (fun arr => tag ∈ arr)).length

/-- Model of `ClusteringService.calculateClusterTrendScore`: blend of average
virality, average relevance and a volume boost, floored and clamped. -/
def calculateClusterTrendScore (posts : List NPost) : ℤ :=
  let avgVirality : ℚ := (posts.map (fun p => (p.viralityScore : ℚ))).sum / posts.length
  let avgRelevance : ℚ := (posts.map (fun p => (p.relevanceScore : ℚ))).sum / posts.length
  let volumeBoost : ℚ := min 20 (posts.length * 2)
  let score : ℚ := avgVirality * 0.4 + avgRelevance * 0.4 + volumeBoost * 0.2
  min 100 (max 0 ⌊score⌋)

/-- The cluster trend score exactly as the specification words it:
`0.4*avg(virality) + 0.4*avg(relevance) + 0.2*min(20, 2*group_size)`,
floored, clamped to [0,100]. -/
def specTrendScore (posts : List NPost) : ℤ :=
  let avgVirality : ℚ := (posts.map (fun p => (p.viralityScore : ℚ))).sum / posts.length
  let avgRelevance : ℚ := (posts.map (fun p => (p.relevanceScore : ℚ))).sum / posts.length
  let score : ℚ := 0.4 * avgVirality + 0.4 * avgRelevance +
    0.2 * min 20 (2 * posts.length)
  max 0 (min 100 ⌊score⌋)

/-- Model of `ClusteringService.calculateGrowth`: compare the posting volume of
the last 24 hours with the volume of the 24 hours before it. -/
def calculateGrowth (posts : List NPost) (now : ℤ) : ℤ :=
  if posts.length < 2 then 0
  else
    let oneDayAgo : ℤ := now - 24 * 60 * 60 * 1000
    let twoDaysAgo : ℤ := now - 48 * 60 * 60 * 1000
    let recent := (posts.filter (fun p => oneDayAgo < p.postedAt)).length
    let previous := (posts.filter (fun p =>
      twoDaysAgo < p.postedAt ∧ p.postedAt ≤ oneDayAgo)).length
    if previous = 0 then (if 0 < recent then 100 else 0)
    else ⌊(((recent : ℚ) - previous) / previous) * 100⌋

/-- The growth formula exactly as the specification words it. -/
def specGrowth (posts : List NPost) (now : ℤ) : ℤ :=
  let recent := (posts.filter (fun p => now - 86400000 < p.postedAt)).length
  let previous := (posts.filter (fun p =>
    now - 172800000 < p.postedAt ∧ p.postedAt ≤ now - 86400000)).length
  if posts.length < 2 then 0
  else if previous = 0 then (if 0 < recent then 100 else 0)
  else ⌊(((recent : ℚ) - previous) / previous) * 100⌋

/-- Model of `Math.max(...)` over member timestamps (the service only calls this
with non-empty groups). -/
def maxTime : List ℤ → ℤ
  | [] => 0
  | t :: ts => ts.foldl max t

/-- Model of `Math.min(...)` over member timestamps. -/
def minTime : List ℤ → ℤ
  | [] => 0
  | t :: ts => ts.foldl min t

/-- Model of `el.replace('#', '')`: a string pattern replaces only the first
occurrence in JavaScript. -/
def dropFirstHash : List Char → List Char
  | [] => []
  | c :: cs => if c == '#' then cs else c :: dropFirstHash cs

/-- One title element: strip the first `#`, underscores to spaces,
capitalize the first character. -/
def humanize (el : String) : String :=
  match (dropFirstHash el.data).map (fun c => if c == '_' then ' ' else c) with
  | [] => ""
  | c :: cs => ⟨c.toUpper :: cs⟩

/-- Model of `ClusteringService.generateClusterTitle`. -/
def generateClusterTitle (hashtags keywords : List String) : String :=
  let elements := hashtags.take 2 ++ keywords.take 2
  if elements.isEmpty then "Fashion Trend"
  else String.intercalate " & " (elements.map humanize)

/-- The create branch of `ClusteringService.createOrUpdateCluster`. -/
def createCluster (clusterKey : String) (posts : List NPost) : TrendCluster :=
  let commonHashtags := findCommonElements (posts.map (fun p => p.hashtags))
  let commonKeywords := findCommonElements (posts.map (fun p => p.keywords))
  { clusterKey := clusterKey
    commonHashtags := commonHashtags
    commonKeywords := commonKeywords
    title := generateClusterTitle commonHashtags commonKeywords
    aiInsight := "AI insight pending..."
    trendScore := calculateClusterTrendScore posts
    growthPercentage := 0
    firstSeenAt := minTime (posts.map (fun p => p.postedAt))
    lastSeenAt := maxTime (posts.map (fun p => p.postedAt))
    isActive := true }

/-- The update branch of `ClusteringService.createOrUpdateCluster`: the
found cluster's common-tag lists, trend score and `lastSeenAt` are
overwritten and the cluster is marked active. -/
def updateExistingCluster (c : TrendCluster) (posts : List NPost) : TrendCluster :=
  { c with
    commonHashtags := findCommonElements (posts.map (fun p => p.hashtags))
    commonKeywords := findCommonElements (posts.map (fun p => p.keywords))
    trendScore := calculateClusterTrendScore posts
    lastSeenAt := maxTime (posts.map (fun p => p.postedAt))
    isActive := true }

/-- Model of `ClusteringService.createOrUpdateCluster` against the list of
existing cluster rows. -/
def createOrUpdateCluster (existing : List TrendCluster) (key : String)
    (posts : List NPost) : TrendCluster :=
  match existing.find? (fun c => c.clusterKey == key) with
  | some c => updateExistingCluster c posts
  | none => createCluster key posts

/-- The fingerprint of a post, as grouped by
`ClusteringService.groupPostsIntoClusters`. -/
def postKey (p : NPost) : String := generateClusterKey p.hashtags p.keywords

/-- Append a post to its key's group (`clusterGroups.get(key).push`),
creating the group at the end on first sight, as a JS `Map` does. -/
def addToGroups : List (String × List NPost) → String → NPost → List (String × List NPost)
  | [], key, p => [(key, [p])]
  | (k, ps) :: rest, key, p =>
    if k = key then (k, ps ++ [p]) :: rest else (k, ps) :: addToGroups rest key p

/-- The `clusterGroups` map of `groupPostsIntoClusters`. -/
def buildGroups (posts : List NPost) : List (String × List NPost) :=
  posts.foldl (fun gs p => addToGroups gs (postKey p) p) []

/-- Size of the group stored under a key (0 when absent). -/
def groupSizeOf (groups : List (String × List NPost)) (key : String) : ℕ :=
  match groups.find? (fun g => g.1 == key) with
  | some g => g.2.length
  | none => 0

/-- Number of posts of the batch carrying the given fingerprint. -/
def groupSize (key : String) (posts : List NPost) : ℕ :=
  (posts.filter (fun p => postKey p == key)).length

/-- Model of `ClusteringService.groupPostsIntoClusters`: group the batch by
fingerprint, upsert a cluster for every group of at least 3 posts, and
assign exactly the posts of those groups (`updateMany` per group) —
other posts keep their row unchanged.  Returns the upserted clusters
and the batch rows after assignment. -/
def groupPostsIntoClusters (existing : List TrendCluster) (posts : List NPost) :
    List TrendCluster × List NPost :=
  let groups := buildGroups posts
  let results := (groups.filter (fun g => 3 ≤ g.2.length)).map
    (fun g => createOrUpdateCluster existing g.1 g.2)
  let assigned := posts.map (fun p =>
    if 3 ≤ groupSizeOf groups (postKey p) then { p with clusterId := some (postKey p) }
    else p)
  (results, assigned)

/-- A record with all engagement counters zero and no media. -/
def zeroPost : ScrapedPost :=
  { likes := 0, comments := 0, shares := 0, views := 0, mediaUrls := [] }

/-- A member record with the given timestamp and no tags. -/
def growthPost (t : ℤ) : NPost :=
  { id := 0, hashtags := [], keywords := [], postedAt := t,
    viralityScore := 0, relevanceScore := 0, clusterId := none }

/-- Reference instant for the growth instances. -/
def growthNow : ℤ := 200000000000

/-- 5 members in the last 24 hours, none in the previous window. -/
def growthBatch1 : List NPost := List.replicate 5 (growthPost 199999999000)

/-- 10 members in the last 24 hours, 10 in the previous window. -/
def growthBatch2 : List NPost :=
  List.replicate 10 (growthPost 199999999000) ++
    List.replicate 10 (growthPost 199900000000)

/-- 5 members in the last 24 hours, 10 in the previous window. -/
def growthBatch3 : List NPost :=
  List.replicate 5 (growthPost 199999999000) ++
    List.replicate 10 (growthPost 199900000000)

/-- An existing cluster row last seen at time 100. -/
def staleCluster : TrendCluster :=
  { clusterKey := "k", commonHashtags := [], commonKeywords := [], title := "t",
    aiInsight := "i", trendScore := 0, growthPercentage := 0, firstSeenAt := 0,
    lastSeenAt := 100, isActive := true }

/-- A batch member posted at the given (earlier) time. -/
def earlyPost (t : ℤ) : NPost :=
  { id := 0, hashtags := [], keywords := [], postedAt := t,
    viralityScore := 0, relevanceScore := 0, clusterId := none }

/-- An unassigned record tagged `#a`, `#b` with keyword `x`. -/
def pairPost (n : ℕ) : NPost :=
  { id := n, hashtags := ["#a", "#b"], keywords := ["x"], postedAt := 10,
    viralityScore := 50, relevanceScore := 60, clusterId := none }

/-- C3: the computed virality score agrees with the spec formula on
every input record. -/
theorem virality_matches_spec (p : ScrapedPost) :
    calculateViralityScore p = specViralityScore p := by
  have hmul : p.likes + p.comments * 2 + p.shares * 3
      = p.likes + 2 * p.comments + 3 * p.shares := by ring
  simp only [calculateViralityScore, specViralityScore, hmul]
  set e : ℕ := p.likes + 2 * p.comments + 3 * p.shares with he
  by_cases hv : p.views = 0
  · rw [if_pos hv, if_neg (by omega : ¬ 0 < p.views)]
    by_cases hz : e = 0
    · rw [hz]
      norm_num
    · rw [if_pos (by positivity : 0 < e * 10)]
      omega
  · rw [if_neg hv, if_pos (by omega : 0 < p.views), if_pos (by omega : 0 < p.views)]
    omega

/-- C4: for every input record and text each of the three per-record
scores (virality, relevance, quality) is an integer of the inclusive
range [0, 100]; integrality is by construction (`ℤ`-valued). -/
theorem scores_in_range (p : ScrapedPost) (text : String)
    (hashtags keywords : List String) :
    (0 ≤ calculateViralityScore p ∧ calculateViralityScore p ≤ 100) ∧
    (0 ≤ calculateRelevanceScore text hashtags keywords ∧
      calculateRelevanceScore text hashtags keywords ≤ 100) ∧
    (0 ≤ calculateQualityScore p text ∧ calculateQualityScore p text ≤ 100) := by
  refine ⟨?_, ?_, ?_⟩
  · simp only [calculateViralityScore]
    omega
  · simp only [calculateRelevanceScore]
    split_ifs <;> omega
  · simp only [calculateQualityScore]
    split_ifs <;> omega

/-- C10: relevance and quality both start at base 50 and only gain
non-negative bonuses before the upper clamp, so they always lie in
[50, 100]; the virality score, by contrast, can fall below 50 (it is 0
for the all-zero record). -/
theorem relevance_quality_at_least_fifty (p : ScrapedPost) (text : String)
    (hashtags keywords : List String) :
    (50 ≤ calculateRelevanceScore text hashtags keywords ∧
      calculateRelevanceScore text hashtags keywords ≤ 100) ∧
    (50 ≤ calculateQualityScore p text ∧ calculateQualityScore p text ≤ 100) ∧
    calculateViralityScore zeroPost < 50 := by
  refine ⟨?_, ?_, by norm_num [calculateViralityScore, zeroPost]⟩
  · simp only [calculateRelevanceScore]
    split_ifs <;> omega
  · simp only [calculateQualityScore]
    split_ifs <;> omega

/-- C6: the cluster trend score agrees with the spec formula on every
non-empty group. -/
theorem trend_score_matches_spec (posts : List NPost) (h : posts ≠ []) :
    calculateClusterTrendScore posts = specTrendScore posts := by
  simp only [calculateClusterTrendScore, specTrendScore]
  push_cast
  rw [show ((posts.length : ℚ) * 2) = 2 * posts.length from by ring]
  rw [show ∀ a b c : ℚ, a * 0.4 + b * 0.4 + c * 0.2 = 0.4 * a + 0.4 * b + 0.2 * c
    from by intros; ring]
  omega

/-- Witness for C6 at a concrete one-member group. -/
theorem trend_score_matches_spec_witness :
    ([growthPost 0] ≠ []) ∧
      calculateClusterTrendScore [growthPost 0] = specTrendScore [growthPost 0] :=
  ⟨by decide, trend_score_matches_spec [growthPost 0] (by decide)⟩

/-- C7: the growth computation agrees with the spec formula everywhere;
with previous = 0 and recent = 5 it yields exactly 100, with 10/10 it
yields 0, and with previous = 10, recent = 5 it yields -50 (no clamp
below 0). -/
theorem growth_matches_spec :
    (∀ (posts : List NPost) (now : ℤ), calculateGrowth posts now = specGrowth posts now) ∧
    calculateGrowth growthBatch1 growthNow = 100 ∧
    calculateGrowth growthBatch2 growthNow = 0 ∧
    calculateGrowth growthBatch3 growthNow = -50 := by
  refine ⟨fun posts now => ?_, ?_, ?_, ?_⟩
  · simp only [calculateGrowth, specGrowth]
    norm_num
  · norm_num [calculateGrowth, growthBatch1, growthPost, growthNow, List.replicate]
  · norm_num [calculateGrowth, growthBatch2, growthPost, growthNow, List.replicate]
  · norm_num [calculateGrowth, growthBatch3, growthPost, growthNow, List.replicate]

/-- Comparing a list with itself is never strictly below. -/
theorem charListLt_irrefl (a : List Char) : charListLt a a = false := by
  induction a with
  | nil => rfl
  | cons c cs ih => simp [charListLt, ih]

/-- Transitivity of the comparator. -/
theorem charListLt_trans {a b c : List Char} (h1 : charListLt a b = true)
    (h2 : charListLt b c = true) : charListLt a c = true := by
  induction a generalizing b c with
  | nil =>
    cases c with
    | nil => cases b <;> simp [charListLt] at h2
    | cons z zs => rfl
  | cons x xs ih =>
    cases b with
    | nil => simp [charListLt] at h1
    | cons y ys =>
      cases c with
      | nil => simp [charListLt] at h2
      | cons z zs =>
        simp only [charListLt] at h1 h2 ⊢
        by_cases hxy : x < y
        · by_cases hyz : y < z
          · simp [lt_trans hxy hyz]
          · rw [if_neg hyz] at h2
            by_cases hzy : z < y
            · rw [if_pos hzy] at h2
              simp at h2
            · have hyz2 : y = z := le_antisymm (not_lt.1 hzy) (not_lt.1 hyz)
              simp [hyz2 ▸ hxy]
        · rw [if_neg hxy] at h1
          by_cases hyx : y < x
          · rw [if_pos hyx] at h1
            simp at h1
          · rw [if_neg hyx] at h1
            have hxy2 : x = y := le_antisymm (not_lt.1 hyx) (not_lt.1 hxy)
            by_cases hyz : y < z
            · simp [hxy2 ▸ hyz]
            · rw [if_neg hyz] at h2
              by_cases hzy : z < y
              · rw [if_pos hzy] at h2
                simp at h2
              · rw [if_neg hzy] at h2
                have hyz2 : y = z := le_antisymm (not_lt.1 hzy) (not_lt.1 hyz)
                have hxz : ¬ x < z := by rw [hxy2, hyz2]; exact lt_irrefl z
                have hzx : ¬ z < x := by rw [hxy2, hyz2]; exact lt_irrefl z
                simp [hxz, hzx, ih h1 h2]

/-- Two lists neither of which is below the other are equal. -/
theorem charListLt_conn {a b : List Char} (h1 : charListLt a b = false)
    (h2 : charListLt b a = false) : a = b := by
  induction a generalizing b with
  | nil =>
    cases b with
    | nil => rfl
    | cons y ys => simp [charListLt] at h1
  | cons x xs ih =>
    cases b with
    | nil => simp [charListLt] at h2
    | cons y ys =>
      simp only [charListLt] at h1 h2
      by_cases hxy : x < y
      · rw [if_pos hxy] at h1
        simp at h1
      · rw [if_neg hxy] at h1
        by_cases hyx : y < x
        · rw [if_pos hyx] at h2
          simp at h2
        · rw [if_neg hyx] at h1
          rw [if_neg hyx, if_neg hxy] at h2
          have hxy2 : x = y := le_antisymm (not_lt.1 hyx) (not_lt.1 hxy)
          rw [ih h1 h2, hxy2]

instance : IsTrans String strLeP := by
  refine ⟨fun a b c h1 h2 => ?_⟩
  simp only [strLeP, strLeB, Bool.not_eq_eq_eq_not, Bool.not_false] at h1 h2 ⊢
  by_contra hca
  have h3 : charListLt c.data a.data = true := by
    revert hca
    cases charListLt c.data a.data <;> simp
  cases hab : charListLt a.data b.data with
  | true => exact absurd (charListLt_trans h3 hab) (by simp [h2])
  | false =>
    have hd : a.data = b.data := charListLt_conn hab h1
    rw [hd] at h3
    exact absurd h3 (by simp [h2])

instance : IsTotal String strLeP := by
  refine ⟨fun a b => ?_⟩
  simp only [strLeP, strLeB, Bool.not_eq_eq_eq_not, Bool.not_false]
  cases hba : charListLt b.data a.data with
  | false => exact Or.inl rfl
  | true =>
    refine Or.inr ?_
    cases hab : charListLt a.data b.data with
    | false => rfl
    | true => exact absurd (charListLt_trans hab hba) (by simp [charListLt_irrefl])

instance : IsAntisymm String strLeP := by
  refine ⟨fun a b h1 h2 => ?_⟩
  simp only [strLeP, strLeB, Bool.not_eq_eq_eq_not, Bool.not_false] at h1 h2
  exact String.ext (charListLt_conn h2 h1)

set_option maxRecDepth 10000 in
/-- C1 counterexample: two records with equal hashtag sets (and equal —
empty — keyword sets) given in different orders receive different
fingerprints, because the code slices the first 3 tags before sorting. -/
theorem cluster_key_order_dependent :
    (["a", "b", "c", "d"] : List String) ⊆ ["d", "c", "b", "a"] ∧
    (["d", "c", "b", "a"] : List String) ⊆ ["a", "b", "c", "d"] ∧
    generateClusterKey ["a", "b", "c", "d"] [] ≠
      generateClusterKey ["d", "c", "b", "a"] [] :=
  ⟨by decide, by decide, by decide⟩

/-- C1 amended: the fingerprint is deterministic and depends only on
the multiset of the first 3 hashtags and the first 3 keywords in input
order: permuting those prefixes leaves the key unchanged (full-set
order-independence fails, see the counterexample). -/
theorem cluster_key_perm_invariant (h1 h2 k1 k2 : List String)
    (hh : List.Perm (h1.take 3) (h2.take 3))
    (hk : List.Perm (k1.take 3) (k2.take 3)) :
    generateClusterKey h1 k1 = generateClusterKey h2 k2 := by
  have sortEq : ∀ l1 l2 : List String, List.Perm l1 l2 →
      l1.insertionSort strLeP = l2.insertionSort strLeP := by
    intro l1 l2 hp
    exact List.eq_of_perm_of_sorted
      ((List.perm_insertionSort _ _).trans (hp.trans (List.perm_insertionSort _ _).symm))
      (List.sorted_insertionSort _ _) (List.sorted_insertionSort _ _)
  simp only [generateClusterKey, sortEq _ _ hh, sortEq _ _ hk]

set_option maxRecDepth 10000 in
/-- Witness for C1 amended: concrete permuted 3-prefixes give the same
key. -/
theorem cluster_key_perm_invariant_witness :
    List.Perm ((["b", "a", "c", "zz"] : List String).take 3)
      ((["c", "a", "b"] : List String).take 3) ∧
    List.Perm ((["x"] : List String).take 3) ((["x"] : List String).take 3) ∧
    generateClusterKey ["b", "a", "c", "zz"] ["x"] =
      generateClusterKey ["c", "a", "b"] ["x"] :=
  ⟨by decide, by decide,
    cluster_key_perm_invariant _ _ _ _ (by decide) (by decide)⟩

/-- C2 counterexample: when every member of the new group is older than
the cluster's stored `lastSeenAt`, the update regresses it (the code
overwrites it with the group maximum instead of advancing it
monotonically). -/
theorem last_seen_regresses :
    (updateExistingCluster staleCluster
        [earlyPost 50, earlyPost 60, earlyPost 70]).lastSeenAt
      < staleCluster.lastSeenAt := by decide

/-- The left fold of `max` contains its result. -/
theorem foldl_max_mem (ts : List ℤ) (t : ℤ) : ts.foldl max t ∈ t :: ts := by
  induction ts generalizing t with
  | nil => simp
  | cons a ts ih =>
    rw [List.foldl_cons]
    rcases List.mem_cons.1 (ih (max t a)) with h | h
    · rcases max_choice t a with hm | hm
      · rw [h, hm]
        exact List.mem_cons_self _ _
      · rw [h, hm]
        exact List.mem_cons.2 (Or.inr (List.mem_cons_self _ _))
    · exact List.mem_cons.2 (Or.inr (List.mem_cons.2 (Or.inr h)))

/-- The seed bounds the left fold of `max`. -/
theorem le_foldl_max_self (ts : List ℤ) (t : ℤ) : t ≤ ts.foldl max t := by
  induction ts generalizing t with
  | nil => exact le_refl t
  | cons a ts ih =>
    rw [List.foldl_cons]
    exact le_trans (le_max_left t a) (ih (max t a))

/-- The left fold of `max` bounds every input. -/
theorem le_foldl_max (ts : List ℤ) (t x : ℤ) (hx : x ∈ t :: ts) :
    x ≤ ts.foldl max t := by
  induction ts generalizing t with
  | nil => exact le_of_eq (List.mem_singleton.1 hx)
  | cons a ts ih =>
    rw [List.foldl_cons]
    rcases List.mem_cons.1 hx with rfl | h
    · exact le_trans (le_max_left x a) (le_foldl_max_self ts (max x a))
    · rcases List.mem_cons.1 h with rfl | h
      · exact le_trans (le_max_right t x) (le_foldl_max_self ts (max t x))
      · exact ih (max t a) (List.mem_cons.2 (Or.inr h))

/-- C2 amended: the upsert of an existing cluster overwrites its
common-tag lists and trend score, sets `lastSeenAt` to the maximum
`postedAt` among the new group's members (which may be earlier than the
stored value, see the counterexample), and marks the cluster active;
the key is preserved. -/
theorem update_cluster_overwrites (c : TrendCluster) (posts : List NPost)
    (h : posts ≠ []) :
    (updateExistingCluster c posts).isActive = true ∧
    (updateExistingCluster c posts).clusterKey = c.clusterKey ∧
    (updateExistingCluster c posts).lastSeenAt ∈ posts.map (fun p => p.postedAt) ∧
    (∀ p ∈ posts, p.postedAt ≤ (updateExistingCluster c posts).lastSeenAt) ∧
    (updateExistingCluster c posts).trendScore = calculateClusterTrendScore posts ∧
    (updateExistingCluster c posts).commonHashtags =
      findCommonElements (posts.map (fun p => p.hashtags)) ∧
    (updateExistingCluster c posts).commonKeywords =
      findCommonElements (posts.map (fun p => p.keywords)) := by
  obtain ⟨q, qs, rfl⟩ : ∃ q qs, posts = q :: qs := by
    cases posts with
    | nil => exact absurd rfl h
    | cons q qs => exact ⟨q, qs, rfl⟩
  refine ⟨rfl, rfl, ?_, ?_, rfl, rfl, rfl⟩
  · simpa [updateExistingCluster, maxTime] using
      foldl_max_mem (List.map (fun p => p.postedAt) qs) q.postedAt
  · intro p hp
    simp only [updateExistingCluster, maxTime, List.map_cons]
    apply le_foldl_max
    rcases List.mem_cons.1 hp with rfl | hp
    · simp
    · exact List.mem_cons.2 (Or.inr (List.mem_map_of_mem _ hp))

/-- Witness for C2 amended at a concrete three-member group. -/
theorem update_cluster_overwrites_witness :
    (([earlyPost 50, earlyPost 60, earlyPost 70] : List NPost) ≠ []) ∧
    (updateExistingCluster staleCluster
        [earlyPost 50, earlyPost 60, earlyPost 70]).isActive = true ∧
    (updateExistingCluster staleCluster
        [earlyPost 50, earlyPost 60, earlyPost 70]).clusterKey =
      staleCluster.clusterKey ∧
    (updateExistingCluster staleCluster
        [earlyPost 50, earlyPost 60, earlyPost 70]).lastSeenAt ∈
      ([earlyPost 50, earlyPost 60, earlyPost 70].map (fun p => p.postedAt)) ∧
    (∀ p ∈ ([earlyPost 50, earlyPost 60, earlyPost 70] : List NPost),
      p.postedAt ≤ (updateExistingCluster staleCluster
        [earlyPost 50, earlyPost 60, earlyPost 70]).lastSeenAt) ∧
    (updateExistingCluster staleCluster
        [earlyPost 50, earlyPost 60, earlyPost 70]).trendScore =
      calculateClusterTrendScore [earlyPost 50, earlyPost 60, earlyPost 70] ∧
    (updateExistingCluster staleCluster
        [earlyPost 50, earlyPost 60, earlyPost 70]).commonHashtags =
      findCommonElements ([earlyPost 50, earlyPost 60, earlyPost 70].map
        (fun p => p.hashtags)) ∧
    (updateExistingCluster staleCluster
        [earlyPost 50, earlyPost 60, earlyPost 70]).commonKeywords =
      findCommonElements ([earlyPost 50, earlyPost 60, earlyPost 70].map
        (fun p => p.keywords)) :=
  ⟨by decide, update_cluster_overwrites staleCluster _ (by decide)⟩

/-- Unfold `groupSizeOf` over a cons cell. -/
theorem groupSizeOf_cons (a : String × List NPost) (gs : List (String × List NPost))
    (key : String) :
    groupSizeOf (a :: gs) key = if a.1 = key then a.2.length else groupSizeOf gs key := by
  rcases a with ⟨k0, ps⟩
  by_cases h : k0 = key
  · simp [groupSizeOf, List.find?_cons_of_pos, h]
  · rw [if_neg h]
    show groupSizeOf ((k0, ps) :: gs) key = groupSizeOf gs key
    unfold groupSizeOf
    rw [List.find?_cons_of_neg]
    simpa using h

/-- Adding one post to the group map grows exactly its own key's
group. -/
theorem addToGroups_size (gs : List (String × List NPost)) (k : String) (p : NPost)
    (key : String) :
    groupSizeOf (addToGroups gs k p) key
      = groupSizeOf gs key + (if k = key then 1 else 0) := by
  induction gs with
  | nil =>
    simp only [addToGroups, groupSizeOf_cons]
    by_cases h : k = key
    · simp [h, groupSizeOf]
    · simp [h, groupSizeOf]
  | cons a rest ih =>
    rcases a with ⟨k0, ps⟩
    simp only [addToGroups]
    by_cases h0 : k0 = k
    · rw [if_pos h0]
      rw [groupSizeOf_cons, groupSizeOf_cons]
      by_cases hk : k0 = key
      · have : k = key := h0 ▸ hk
        simp [hk, this]
      · have : ¬ k = key := fun hkey => hk (h0.trans hkey)
        simp [hk, this]
    · rw [if_neg h0]
      rw [groupSizeOf_cons, groupSizeOf_cons, ih]
      by_cases hk : k0 = key
      · have : ¬ k = key := fun hkey => h0 (hk.trans hkey.symm)
        simp [hk, this]
      · simp [hk]

/-- The group map built from the batch stores, under every key, exactly
the posts of the batch with that fingerprint. -/
theorem buildGroups_size (posts : List NPost) (key : String) :
    groupSizeOf (buildGroups posts) key = groupSize key posts := by
  suffices h : ∀ gs, groupSizeOf (posts.foldl
      (fun gs p => addToGroups gs (postKey p) p) gs) key
      = groupSizeOf gs key + groupSize key posts by
    have := h []
    simpa [buildGroups, groupSizeOf] using this
  induction posts with
  | nil => intro gs; simp [groupSize]
  | cons p rest ih =>
    intro gs
    rw [List.foldl_cons, ih, addToGroups_size]
    have : groupSize key (p :: rest)
        = (if postKey p = key then 1 else 0) + groupSize key rest := by
      simp only [groupSize, List.filter_cons]
      by_cases h : postKey p = key
      · simp only [h, if_pos rfl]
        simp [Nat.add_comm]
      · simp [h]
    omega

/-- Keys in the image of `addToGroups` come from the map or are the
added key. -/
theorem addToGroups_keys (gs : List (String × List NPost)) (k : String) (p : NPost)
    (g : String × List NPost) (hg : g ∈ addToGroups gs k p) :
    g.1 = k ∨ ∃ ps, (g.1, ps) ∈ gs := by
  induction gs with
  | nil =>
    simp only [addToGroups, List.mem_singleton] at hg
    exact Or.inl (by rw [hg])
  | cons a rest ih =>
    rcases a with ⟨k0, ps0⟩
    simp only [addToGroups] at hg
    by_cases h0 : k0 = k
    · rw [if_pos h0] at hg
      rcases List.mem_cons.1 hg with rfl | hg
      · exact Or.inl h0
      · exact Or.inr ⟨g.2, by simp [List.mem_cons.2 (Or.inr hg)]⟩
    · rw [if_neg h0] at hg
      rcases List.mem_cons.1 hg with rfl | hg
      · exact Or.inr ⟨ps0, List.mem_cons.2 (Or.inl rfl)⟩
      · rcases ih hg with h | ⟨ps, hps⟩
        · exact Or.inl h
        · exact Or.inr ⟨ps, List.mem_cons.2 (Or.inr hps)⟩

/-- Adding to the group map preserves distinctness of the group keys. -/
theorem addToGroups_pairwise (gs : List (String × List NPost)) (k : String) (p : NPost)
    (h : gs.Pairwise (fun g1 g2 => g1.1 ≠ g2.1)) :
    (addToGroups gs k p).Pairwise (fun g1 g2 => g1.1 ≠ g2.1) := by
  induction gs with
  | nil => simp [addToGroups]
  | cons a rest ih =>
    rcases a with ⟨k0, ps0⟩
    rcases List.pairwise_cons.1 h with ⟨hhead, htail⟩
    simp only [addToGroups]
    by_cases h0 : k0 = k
    · rw [if_pos h0]
      exact List.pairwise_cons.2 ⟨hhead, htail⟩
    · rw [if_neg h0]
      refine List.pairwise_cons.2 ⟨?_, ih htail⟩
      intro g hg
      rcases addToGroups_keys rest k p g hg with hk | ⟨ps, hps⟩
      · rw [hk]
        exact h0
      · have := hhead (g.1, ps) hps
        simpa using this

/-- The batch's group map has pairwise distinct keys. -/
theorem buildGroups_pairwise (posts : List NPost) :
    (buildGroups posts).Pairwise (fun g1 g2 => g1.1 ≠ g2.1) := by
  suffices h : ∀ gs, gs.Pairwise (fun g1 g2 => g1.1 ≠ g2.1) →
      (posts.foldl (fun gs p => addToGroups gs (postKey p) p) gs).Pairwise
        (fun g1 g2 => g1.1 ≠ g2.1) by
    exact h [] (by simp)
  induction posts with
  | nil => intro gs hgs; simpa using hgs
  | cons p rest ih =>
    intro gs hgs
    rw [List.foldl_cons]
    exact ih _ (addToGroups_pairwise gs (postKey p) p hgs)

/-- In a map with distinct keys, `find?` by a member's key returns that
member. -/
theorem find?_mem_pairwise (gs : List (String × List NPost))
    (hnd : gs.Pairwise (fun g1 g2 => g1.1 ≠ g2.1))
    (g : String × List NPost) (hg : g ∈ gs) :
    gs.find? (fun e => e.1 == g.1) = some g := by
  induction gs with
  | nil => simp at hg
  | cons a rest ih =>
    rcases List.pairwise_cons.1 hnd with ⟨hhead, htail⟩
    rcases List.mem_cons.1 hg with rfl | hg
    · exact List.find?_cons_of_pos _ (by simp)
    · have hne : ¬ ((fun e => e.1 == g.1) a = true) := by
        have := hhead g hg
        simpa using this
      exact (List.find?_cons_of_neg rest hne).trans (ih htail hg)

/-- A member of a distinct-key map holds exactly the size recorded for
its key. -/
theorem mem_buildGroups_size (posts : List NPost) (g : String × List NPost)
    (hg : g ∈ buildGroups posts) : g.2.length = groupSize g.1 posts := by
  have hfind := find?_mem_pairwise (buildGroups posts) (buildGroups_pairwise posts) g hg
  have : groupSizeOf (buildGroups posts) g.1 = g.2.length := by
    unfold groupSizeOf
    rw [hfind]
  rw [← this, buildGroups_size]

/-- The upserted cluster carries the group's fingerprint as its key. -/
theorem createOrUpdateCluster_key (existing : List TrendCluster) (k : String)
    (posts : List NPost) : (createOrUpdateCluster existing k posts).clusterKey = k := by
  unfold createOrUpdateCluster
  cases hfind : existing.find? (fun c => c.clusterKey == k) with
  | none => rfl
  | some c =>
    have := List.find?_some hfind
    have hk : c.clusterKey = k := by simpa using this
    simpa [updateExistingCluster] using hk

set_option maxRecDepth 10000 in
/-- C8: a fingerprint group with fewer than 3 members yields no cluster
(none of the upserted clusters carries its key) and every record of the
group keeps its row — in particular its null cluster reference; a batch
of exactly 2 records sharing a fingerprint produces zero clusters and
leaves both records untouched. -/
theorem small_groups_unclustered :
    (∀ (existing : List TrendCluster) (posts : List NPost) (key : String),
      groupSize key posts < 3 →
      (∀ c ∈ (groupPostsIntoClusters existing posts).1, c.clusterKey ≠ key) ∧
      (∀ (i : ℕ) (p : NPost), posts[i]? = some p → postKey p = key →
        (groupPostsIntoClusters existing posts).2[i]? = some p)) ∧
    groupPostsIntoClusters [] [pairPost 1, pairPost 2]
      = ([], [pairPost 1, pairPost 2]) := by
  constructor
  · intro existing posts key hsmall
    constructor
    · intro c hc
      simp only [groupPostsIntoClusters, List.mem_map] at hc
      obtain ⟨g, hgfilter, rfl⟩ := hc
      rw [createOrUpdateCluster_key]
      rcases List.mem_filter.1 hgfilter with ⟨hgmem, hgsize⟩
      intro hkey
      have hsize := mem_buildGroups_size posts g hgmem
      rw [hkey] at hsize
      have h3 : 3 ≤ g.2.length := by simpa using hgsize
      omega
    · intro i p hp hkey
      show (posts.map (fun p =>
        if 3 ≤ groupSizeOf (buildGroups posts) (postKey p)
        then { p with clusterId := some (postKey p) } else p))[i]? = some p
      rw [List.getElem?_map, hp]
      have : ¬ 3 ≤ groupSizeOf (buildGroups posts) (postKey p) := by
        rw [hkey, buildGroups_size]
        omega
      simp [this]
  · decide

set_option maxRecDepth 10000 in
/-- Witness for C8 at the concrete two-record batch. -/
theorem small_groups_unclustered_witness :
    groupSize (postKey (pairPost 1)) [pairPost 1, pairPost 2] < 3 ∧
    ((∀ c ∈ (groupPostsIntoClusters [] [pairPost 1, pairPost 2]).1,
        c.clusterKey ≠ postKey (pairPost 1)) ∧
      (∀ (i : ℕ) (p : NPost), ([pairPost 1, pairPost 2] : List NPost)[i]? = some p →
        postKey p = postKey (pairPost 1) →
        (groupPostsIntoClusters [] [pairPost 1, pairPost 2]).2[i]? = some p)) :=
  ⟨by decide, small_groups_unclustered.1 [] [pairPost 1, pairPost 2]
    (postKey (pairPost 1)) (by decide)⟩

/-- Bumping a key increments exactly that key's count. -/
theorem lookup_bump (m : List (String × ℕ)) (item x : String) :
    lookupCount (bump m item) x = lookupCount m x + (if item = x then 1 else 0) := by
  induction m with
  | nil =>
    simp only [bump, lookupCount]
    by_cases h : item = x
    · simp [h]
    · simp [h]
  | cons a rest ih =>
    rcases a with ⟨k, v⟩
    simp only [bump]
    by_cases hk : k = item
    · rw [if_pos hk]
      simp only [lookupCount]
      by_cases hx : k = x
      · have : item = x := hk ▸ hx
        simp [hx, this]
      · have : ¬ item = x := fun hix => hx (hk.trans hix)
        simp [hx, this]
    · rw [if_neg hk]
      simp only [lookupCount]
      by_cases hx : k = x
      · have : ¬ item = x := fun hix => hk (hx.trans hix.symm)
        simp [hx, this]
      · simp [hx, ih]

/-- Membership in the deduplication fold. -/
theorem mem_dedup_foldl (l : List String) (acc : List String) (x : String) :
    (x ∈ l.foldl (fun acc y => if y ∈ acc then acc else acc ++ [y]) acc)
      ↔ x ∈ acc ∨ x ∈ l := by
  induction l generalizing acc with
  | nil => simp
  | cons y l ih =>
    rw [List.foldl_cons, ih]
    by_cases hy : y ∈ acc
    · rw [if_pos hy]
      constructor
      · rintro (h | h)
        · exact Or.inl h
        · exact Or.inr (List.mem_cons.2 (Or.inr h))
      · rintro (h | h)
        · exact Or.inl h
        · rcases List.mem_cons.1 h with rfl | h
          · exact Or.inl hy
          · exact Or.inr h
    · rw [if_neg hy]
      simp only [List.mem_append, List.mem_singleton, List.mem_cons]
      tauto

/-- Deduplication keeps exactly the original elements. -/
theorem mem_dedupFirst (l : List String) (x : String) :
    x ∈ dedupFirst l ↔ x ∈ l := by
  simpa using mem_dedup_foldl l [] x

/-- The deduplication fold returns a duplicate-free list. -/
theorem nodup_dedup_foldl (l : List String) (acc : List String) (hacc : acc.Nodup) :
    (l.foldl (fun acc y => if y ∈ acc then acc else acc ++ [y]) acc).Nodup := by
  induction l generalizing acc with
  | nil => simpa using hacc
  | cons y l ih =>
    rw [List.foldl_cons]
    by_cases hy : y ∈ acc
    · rw [if_pos hy]
      exact ih acc hacc
    · rw [if_neg hy]
      refine ih _ ?_
      simp [List.nodup_append, hacc, hy]

/-- Deduplication returns a duplicate-free list. -/
theorem nodup_dedupFirst (l : List String) : (dedupFirst l).Nodup :=
  nodup_dedup_foldl l [] (by simp)

/-- Folding `bump` over a duplicate-free list adds one to each of its
members. -/
theorem lookup_foldl_bump (items : List String) (m : List (String × ℕ)) (x : String)
    (hnd : items.Nodup) :
    lookupCount (items.foldl bump m) x
      = lookupCount m x + (if x ∈ items then 1 else 0) := by
  induction items generalizing m with
  | nil => simp
  | cons i items ih =>
    rcases List.nodup_cons.1 hnd with ⟨hi, htail⟩
    rw [List.foldl_cons, ih _ htail, lookup_bump]
    by_cases hx : i = x
    · have : ¬ x ∈ items := fun hmem => hi (hx ▸ hmem)
      simp [hx, this]
    · have hxmem : (x ∈ i :: items) ↔ x ∈ items := by
        constructor
        · intro h
          rcases List.mem_cons.1 h with rfl | h
          · exact absurd rfl hx
          · exact h
        · exact fun h => List.mem_cons.2 (Or.inr h)
      by_cases hmem : x ∈ items
      · simp [hx, hmem, hxmem.mpr hmem]
      · have hnot : ¬ x ∈ i :: items := fun h => hmem (hxmem.1 h)
        simp [hx, hmem, hnot]

/-- The count map of `findCommonElements` records, for every tag, the
number of member arrays containing it. -/
theorem lookup_tagCounts (arrays : List (List String)) (x : String) :
    lookupCount (tagCounts arrays) x = memberCount arrays x := by
  suffices h : ∀ m, lookupCount (arrays.foldl
      (fun m arr => (dedupFirst arr).foldl bump m) m) x
      = lookupCount m x + memberCount arrays x by
    simpa [tagCounts, lookupCount] using h []
  induction arrays with
  | nil => intro m; simp [memberCount]
  | cons arr arrays ih =>
    intro m
    rw [List.foldl_cons, ih, lookup_foldl_bump _ _ _ (nodup_dedupFirst arr)]
    have hmem : (x ∈ dedupFirst arr) ↔ x ∈ arr := mem_dedupFirst arr x
    have hcount : memberCount (arr :: arrays) x
        = (if x ∈ arr then 1 else 0) + memberCount arrays x := by
      simp only [memberCount, List.filter_cons]
      by_cases h : x ∈ arr
      · simp [h, Nat.add_comm]
      · simp [h]
    rw [hcount]
    by_cases h : x ∈ arr
    · simp [hmem, h]
      omega
    · simp [hmem, h]

/-- Keys in the image of `bump` come from the map or are the bumped
key. -/
theorem bump_keys (m : List (String × ℕ)) (item : String) (g : String × ℕ)
    (hg : g ∈ bump m item) : g.1 = item ∨ ∃ v, (g.1, v) ∈ m := by
  induction m with
  | nil =>
    simp only [bump, List.mem_singleton] at hg
    exact Or.inl (by rw [hg])
  | cons a rest ih =>
    rcases a with ⟨k, v⟩
    simp only [bump] at hg
    by_cases hk : k = item
    · rw [if_pos hk] at hg
      rcases List.mem_cons.1 hg with rfl | hg
      · exact Or.inl hk
      · exact Or.inr ⟨g.2, List.mem_cons.2 (Or.inr hg)⟩
    · rw [if_neg hk] at hg
      rcases List.mem_cons.1 hg with rfl | hg
      · exact Or.inr ⟨v, List.mem_cons.2 (Or.inl rfl)⟩
      · rcases ih hg with h2 | ⟨v2, hv⟩
        · exact Or.inl h2
        · exact Or.inr ⟨v2, List.mem_cons.2 (Or.inr hv)⟩

/-- Bumping a key preserves distinctness of the keys. -/
theorem bump_pairwise (m : List (String × ℕ)) (item : String)
    (h : m.Pairwise (fun a b => a.1 ≠ b.1)) :
    (bump m item).Pairwise (fun a b => a.1 ≠ b.1) := by
  induction m with
  | nil => simp [bump]
  | cons a rest ih =>
    rcases a with ⟨k, v⟩
    rcases List.pairwise_cons.1 h with ⟨hhead, htail⟩
    simp only [bump]
    by_cases hk : k = item
    · rw [if_pos hk]
      exact List.pairwise_cons.2 ⟨hhead, htail⟩
    · rw [if_neg hk]
      refine List.pairwise_cons.2 ⟨?_, ih htail⟩
      intro g hg
      rcases bump_keys rest item g hg with h2 | ⟨v2, hv⟩
      · rw [h2]
        exact hk
      · have := hhead (g.1, v2) hv
        simpa using this

/-- The count map of `findCommonElements` has pairwise distinct keys. -/
theorem tagCounts_pairwise (arrays : List (List String)) :
    (tagCounts arrays).Pairwise (fun a b => a.1 ≠ b.1) := by
  suffices hstep : ∀ (m : List (String × ℕ)), m.Pairwise (fun a b => a.1 ≠ b.1) →
      (arrays.foldl (fun m arr => (dedupFirst arr).foldl bump m) m).Pairwise
        (fun a b => a.1 ≠ b.1) by
    exact hstep [] (by simp)
  have hb : ∀ (items : List String) (m : List (String × ℕ)),
      m.Pairwise (fun a b => a.1 ≠ b.1) →
      (items.foldl bump m).Pairwise (fun a b => a.1 ≠ b.1) := by
    intro items
    induction items with
    | nil => intro m hm; simpa using hm
    | cons i items ih =>
      intro m hm
      rw [List.foldl_cons]
      exact ih _ (bump_pairwise m i hm)
  induction arrays with
  | nil => intro m hm; simpa using hm
  | cons arr arrays ih =>
    intro m hm
    rw [List.foldl_cons]
    exact ih _ (hb (dedupFirst arr) m hm)

/-- In a distinct-key count map, a member pair's value is its key's
count. -/
theorem mem_lookup_pairwise (m : List (String × ℕ))
    (hnd : m.Pairwise (fun a b => a.1 ≠ b.1)) (k : String) (v : ℕ)
    (h : (k, v) ∈ m) : lookupCount m k = v := by
  induction m with
  | nil => simp at h
  | cons a rest ih =>
    rcases a with ⟨k0, v0⟩
    rcases List.pairwise_cons.1 hnd with ⟨hhead, htail⟩
    rcases List.mem_cons.1 h with heq | hmem
    · rcases Prod.mk.injEq .. ▸ heq with ⟨rfl, rfl⟩
      simp [lookupCount]
    · have hne : k0 ≠ k := by
        have := hhead (k, v) hmem
        simpa using this
      simp only [lookupCount, if_neg hne]
      exact ih htail hmem

/-- C5: on a non-empty group, common-tag extraction returns only tags
whose per-member count (each member counted once per distinct tag)
reaches `ceil(0.3 * group size)`; the result has at most 5 tags, is
sorted by descending count, and every returned tag occurs in at least
one member's list. -/
theorem common_elements_spec (arrays : List (List String)) (h : arrays ≠ []) :
    (∀ tag ∈ findCommonElements arrays,
      ⌈(arrays.length : ℚ) * 0.3⌉₊ ≤ memberCount arrays tag) ∧
    (findCommonElements arrays).length ≤ 5 ∧
    (findCommonElements arrays).Pairwise
      (fun a b => memberCount arrays b ≤ memberCount arrays a) ∧
    (∀ tag ∈ findCommonElements arrays, ∃ arr ∈ arrays, tag ∈ arr) := by
  have hval : ∀ pr : String × ℕ, pr ∈ (tagCounts arrays).filter
      (fun p => ⌈(arrays.length : ℚ) * 0.3⌉₊ ≤ p.2) →
      pr.2 = memberCount arrays pr.1 ∧ ⌈(arrays.length : ℚ) * 0.3⌉₊ ≤ pr.2 := by
    intro pr hpr
    rcases List.mem_filter.1 hpr with ⟨hprmem, hprcond⟩
    refine ⟨?_, by simpa using hprcond⟩
    have hlk := mem_lookup_pairwise (tagCounts arrays) (tagCounts_pairwise arrays)
      pr.1 pr.2 hprmem
    rw [← hlk, lookup_tagCounts]
  have hout : findCommonElements arrays
      = ((((tagCounts arrays).filter
          (fun p => ⌈(arrays.length : ℚ) * 0.3⌉₊ ≤ p.2)).mergeSort
          (fun a b => b.2 ≤ a.2)).map Prod.fst).take 5 := by
    simp only [findCommonElements, if_neg h]
  have hmemcount : ∀ tag ∈ findCommonElements arrays,
      ⌈(arrays.length : ℚ) * 0.3⌉₊ ≤ memberCount arrays tag := by
    intro tag htag
    rw [hout] at htag
    have htag2 := List.take_subset _ _ htag
    rcases List.mem_map.1 htag2 with ⟨pr, hpr, rfl⟩
    rw [List.mem_mergeSort] at hpr
    rcases hval pr hpr with ⟨hv, hth⟩
    rw [← hv]
    exact hth
  refine ⟨hmemcount, ?_, ?_, ?_⟩
  · rw [hout, List.length_take]
    exact min_le_left _ _
  · rw [hout]
    refine List.Pairwise.sublist (List.take_sublist _ _) ?_
    rw [List.pairwise_map]
    have htrans : ∀ a b c : String × ℕ,
        (fun a b : String × ℕ => decide (b.2 ≤ a.2)) a b →
        (fun a b : String × ℕ => decide (b.2 ≤ a.2)) b c →
        (fun a b : String × ℕ => decide (b.2 ≤ a.2)) a c := by
      intro a b c h1 h2
      simp only [decide_eq_true_eq] at *
      omega
    have htotal : ∀ a b : String × ℕ,
        ((fun a b : String × ℕ => decide (b.2 ≤ a.2)) a b ||
          (fun a b : String × ℕ => decide (b.2 ≤ a.2)) b a) := by
      intro a b
      simp only [Bool.or_eq_true, decide_eq_true_eq]
      omega
    have hsorted := List.sorted_mergeSort htrans htotal
      ((tagCounts arrays).filter (fun p => ⌈(arrays.length : ℚ) * 0.3⌉₊ ≤ p.2))
    refine List.Pairwise.imp_of_mem ?_ hsorted
    intro p q hp hq hpq
    have hp2 := (hval p (List.mem_mergeSort.1 hp)).1
    have hq2 := (hval q (List.mem_mergeSort.1 hq)).1
    rw [← hp2, ← hq2]
    simpa using hpq
  · intro tag htag
    have hcount := hmemcount tag htag
    have hth : 0 < ⌈(arrays.length : ℚ) * 0.3⌉₊ := by
      rw [Nat.ceil_pos]
      have hlen : 0 < arrays.length := List.length_pos.2 h
      have hlen2 : (0 : ℚ) < arrays.length := by exact_mod_cast hlen
      nlinarith
    have hpos : 0 < memberCount arrays tag := lt_of_lt_of_le hth hcount
    have hne : (arrays.filter (fun arr => tag ∈ arr)) ≠ [] := by
      intro hnil
      rw [memberCount, hnil] at hpos
      simp at hpos
    rcases List.exists_mem_of_ne_nil _ hne with ⟨arr, harr⟩
    rcases List.mem_filter.1 harr with ⟨hmem2, hcond⟩
    exact ⟨arr, hmem2, by simpa using hcond⟩

/-- Witness for C5 at a concrete three-member group. -/
theorem common_elements_spec_witness :
    (([["a", "b"], ["a"], ["c", "a", "b"]] : List (List String)) ≠ []) ∧
    ((∀ tag ∈ findCommonElements [["a", "b"], ["a"], ["c", "a", "b"]],
      ⌈(([["a", "b"], ["a"], ["c", "a", "b"]] : List (List String)).length : ℚ)
          * 0.3⌉₊ ≤ memberCount [["a", "b"], ["a"], ["c", "a", "b"]] tag) ∧
    (findCommonElements [["a", "b"], ["a"], ["c", "a", "b"]]).length ≤ 5 ∧
    (findCommonElements [["a", "b"], ["a"], ["c", "a", "b"]]).Pairwise
      (fun a b => memberCount [["a", "b"], ["a"], ["c", "a", "b"]] b
        ≤ memberCount [["a", "b"], ["a"], ["c", "a", "b"]] a) ∧
    (∀ tag ∈ findCommonElements [["a", "b"], ["a"], ["c", "a", "b"]],
      ∃ arr ∈ ([["a", "b"], ["a"], ["c", "a", "b"]] : List (List String)), tag ∈ arr)) :=
  ⟨by decide, common_elements_spec [["a", "b"], ["a"], ["c", "a", "b"]] (by decide)⟩

/-- The head of `dropWhile` fails the predicate. -/
theorem head?_dropWhile_false (q : Char → Bool) (m : List Char) (b : Char)
    (h : (m.dropWhile q).head? = some b) : q b = false := by
  induction m with
  | nil => simp [List.dropWhile] at h
  | cons c cs ih =>
    rw [List.dropWhile_cons] at h
    by_cases hc : q c = true
    · rw [if_pos hc] at h
      exact ih h
    · rw [if_neg hc] at h
      simp only [List.head?_cons, Option.some_inj] at h
      rw [← h]
      simpa using hc

/-- Dropping the length of the `takeWhile` block is `dropWhile`. -/
theorem drop_length_takeWhile (q : Char → Bool) (m : List Char) :
    m.drop (m.takeWhile q).length = m.dropWhile q := by
  induction m with
  | nil => simp
  | cons c cs ih =>
    rw [List.takeWhile_cons, List.dropWhile_cons]
    by_cases hc : q c = true
    · simp only [if_pos hc, List.length_cons, List.drop_succ_cons]
      exact ih
    · simp [if_neg hc]

/-- The block `takeWhile` keeps is non-empty exactly when the head passes the test. -/
theorem takeWhile_length_ne_zero (q : Char → Bool) (m : List Char) :
    (m.takeWhile q).length ≠ 0 ↔ ∃ b, m.head? = some b ∧ q b = true := by
  cases m with
  | nil => simp
  | cons c cs =>
    rw [List.takeWhile_cons]
    by_cases hc : q c = true
    · simp [hc]
    · simp [hc]

/-- A pattern matching a prefix still matches after extending the
text. -/
theorem matchesAt_append_right (p m t : List Char)
    (h : matchesAt p m = true) : matchesAt p (m ++ t) = true := by
  induction p generalizing m with
  | nil => rfl
  | cons a p ih =>
    cases m with
    | nil => simp [matchesAt] at h
    | cons c cs =>
      simp only [matchesAt, Bool.and_eq_true] at h ⊢
      exact ⟨h.1, ih cs h.2⟩

/-- Matching `pat ++ [x]` splits into matching `pat` and reading `x`
right after it. -/
theorem matchesAt_append_one (pat : List Char) (m : List Char) (x : Char) :
    matchesAt (pat ++ [x]) m = true
      ↔ (matchesAt pat m = true ∧ (m.drop pat.length).head? = some x) := by
  induction pat generalizing m with
  | nil =>
    cases m with
    | nil => simp [matchesAt]
    | cons c cs =>
      constructor
      · intro hx
        have hcx : x = c := by simpa [matchesAt] using hx
        refine ⟨rfl, ?_⟩
        simp [hcx]
      · rintro ⟨_, hx⟩
        have hcx : c = x := by simpa using hx
        simp [matchesAt, hcx]
  | cons a pat ih =>
    cases m with
    | nil => simp [matchesAt]
    | cons c cs =>
      simp only [List.cons_append, matchesAt, List.append_eq, Bool.and_eq_true,
        List.length_cons, List.drop_succ_cons, ih cs]
      tauto

/-- A matched pattern is literally a prefix of the text. -/
theorem matchesAt_iff_exists (pat m : List Char) :
    matchesAt pat m = true ↔ ∃ t, m = pat ++ t := by
  induction pat generalizing m with
  | nil => simp [matchesAt]
  | cons a pat ih =>
    cases m with
    | nil => simp [matchesAt]
    | cons c cs =>
      simp only [matchesAt, Bool.and_eq_true, beq_iff_eq, ih, List.cons_append,
        List.cons.injEq]
      constructor
      · rintro ⟨rfl, t, rfl⟩
        exact ⟨t, rfl, rfl⟩
      · rintro ⟨t, rfl, rfl⟩
        exact ⟨rfl, t, rfl⟩

/-- The `https://` and `http://` literals cannot both match at one
position (their fifth characters differ). -/
theorem not_http_of_https (m : List Char) (h : matchesAt "https://".data m = true) :
    matchesAt "http://".data m = false := by
  rcases (matchesAt_iff_exists _ _).1 h with ⟨t, rfl⟩
  rfl

/-- A position carries a URL match exactly when one of the two literal
alternatives matches and is followed by a non-whitespace character. -/
theorem urlMatchLen_ne_zero_iff (m : List Char) :
    urlMatchLen m ≠ 0 ↔ ∃ x, jsWhitespace x = false ∧
      (matchesAt ("https://".data ++ [x]) m = true ∨
        matchesAt ("http://".data ++ [x]) m = true) := by
  constructor
  · intro h
    unfold urlMatchLen at h
    by_cases h8 : matchesAt "https://".data m = true
    · rw [if_pos h8] at h
      have htok : ((m.drop 8).takeWhile (fun c => !jsWhitespace c)).length ≠ 0 := by
        intro h0
        rw [if_pos h0] at h
        exact h rfl
      rcases (takeWhile_length_ne_zero _ _).1 htok with ⟨b, hb, hq⟩
      refine ⟨b, by simpa using hq, Or.inl ?_⟩
      rw [matchesAt_append_one, show ("https://".data).length = 8 from rfl]
      exact ⟨h8, hb⟩
    · rw [if_neg h8] at h
      by_cases h7 : matchesAt "http://".data m = true
      · rw [if_pos h7] at h
        have htok : ((m.drop 7).takeWhile (fun c => !jsWhitespace c)).length ≠ 0 := by
          intro h0
          rw [if_pos h0] at h
          exact h rfl
        rcases (takeWhile_length_ne_zero _ _).1 htok with ⟨b, hb, hq⟩
        refine ⟨b, by simpa using hq, Or.inr ?_⟩
        rw [matchesAt_append_one, show ("http://".data).length = 7 from rfl]
        exact ⟨h7, hb⟩
      · rw [if_neg h7] at h
        exact absurd rfl h
  · rintro ⟨x, hx, hor | hor⟩
    · rcases (matchesAt_append_one _ _ _).1 hor with ⟨h8, hb⟩
      rw [show ("https://".data).length = 8 from rfl] at hb
      unfold urlMatchLen
      rw [if_pos h8]
      have htok : ¬ ((m.drop 8).takeWhile (fun c => !jsWhitespace c)).length = 0 := by
        rw [← Ne, takeWhile_length_ne_zero]
        exact ⟨x, hb, by simp [hx]⟩
      rw [if_neg htok]
      omega
    · rcases (matchesAt_append_one _ _ _).1 hor with ⟨h7, hb⟩
      rw [show ("http://".data).length = 7 from rfl] at hb
      have h8 : ¬ matchesAt "https://".data m = true := by
        intro h8
        have hcontra := not_http_of_https m h8
        rw [h7] at hcontra
        cases hcontra
      unfold urlMatchLen
      rw [if_neg h8, if_pos h7]
      have htok : ¬ ((m.drop 7).takeWhile (fun c => !jsWhitespace c)).length = 0 := by
        rw [← Ne, takeWhile_length_ne_zero]
        exact ⟨x, hb, by simp [hx]⟩
      rw [if_neg htok]
      omega

/-- No URL match starts at a whitespace character. -/
theorem urlMatchLen_ws_head (c : Char) (cs : List Char)
    (hws : jsWhitespace c = true) : urlMatchLen (c :: cs) = 0 := by
  have hch : ('h' == c) = false := by
    by_cases hc : c = 'h'
    · subst hc
      exact absurd hws (by decide)
    · exact beq_eq_false_iff_ne.2 fun h2 => hc h2.symm
  have h8 : matchesAt "https://".data (c :: cs) = false := by
    rw [show ("https://".data) = 'h' :: "ttps://".data from rfl]
    simp [matchesAt, hch]
  have h7 : matchesAt "http://".data (c :: cs) = false := by
    rw [show ("http://".data) = 'h' :: "ttp://".data from rfl]
    simp [matchesAt, hch]
  unfold urlMatchLen
  rw [if_neg (by simp [h8]), if_neg (by simp [h7])]

/-- The character right after a URL match (if any) is whitespace. -/
theorem urlMatchLen_drop_head (m : List Char) (h : urlMatchLen m ≠ 0) (b : Char)
    (hb : (m.drop (urlMatchLen m)).head? = some b) : jsWhitespace b = true := by
  unfold urlMatchLen at h hb
  by_cases h8 : matchesAt "https://".data m = true
  · rw [if_pos h8] at h hb
    have htok : ¬ ((m.drop 8).takeWhile (fun c => !jsWhitespace c)).length = 0 := by
      intro h0
      rw [if_pos h0] at h
      exact h rfl
    rw [if_neg htok] at hb
    rw [← List.drop_drop, drop_length_takeWhile] at hb
    have := head?_dropWhile_false _ _ _ hb
    simpa using this
  · rw [if_neg h8] at h hb
    by_cases h7 : matchesAt "http://".data m = true
    · rw [if_pos h7] at h hb
      have htok : ¬ ((m.drop 7).takeWhile (fun c => !jsWhitespace c)).length = 0 := by
        intro h0
        rw [if_pos h0] at h
        exact h rfl
      rw [if_neg htok] at hb
      rw [← List.drop_drop, drop_length_takeWhile] at hb
      have := head?_dropWhile_false _ _ _ hb
      simpa using this
    · rw [if_neg h7] at h
      exact absurd rfl h

/-- Replacing the text below a non-matching position by any text whose
non-whitespace prefix matches carry back: if every all-non-whitespace
pattern matching `R` also matches `cs`, a URL match on `c :: R` forces
one on `c :: cs`. -/
theorem urlMatch_zero_cons (c : Char) (cs R : List Char)
    (hrefl : ∀ p, (∀ ch ∈ p, jsWhitespace ch = false) → matchesAt p R = true →
      matchesAt p cs = true)
    (h0 : urlMatchLen (c :: cs) = 0) : urlMatchLen (c :: R) = 0 := by
  by_contra hq
  rcases (urlMatchLen_ne_zero_iff _).1 hq with ⟨x, hx, hor⟩
  apply absurd h0
  rw [← Ne, urlMatchLen_ne_zero_iff]
  refine ⟨x, hx, ?_⟩
  rcases hor with hor | hor
  · left
    rw [show ("https://".data ++ [x]) = 'h' :: ("ttps://".data ++ [x]) from rfl] at hor ⊢
    simp only [matchesAt, Bool.and_eq_true] at hor ⊢
    refine ⟨hor.1, hrefl _ ?_ hor.2⟩
    intro ch hch
    rcases List.mem_append.1 hch with hch | hch
    · exact (by decide : ∀ ch ∈ "ttps://".data, jsWhitespace ch = false) ch hch
    · rw [List.mem_singleton.1 hch]
      exact hx
  · right
    rw [show ("http://".data ++ [x]) = 'h' :: ("ttp://".data ++ [x]) from rfl] at hor ⊢
    simp only [matchesAt, Bool.and_eq_true] at hor ⊢
    refine ⟨hor.1, hrefl _ ?_ hor.2⟩
    intro ch hch
    rcases List.mem_append.1 hch with hch | hch
    · exact (by decide : ∀ ch ∈ "ttp://".data, jsWhitespace ch = false) ch hch
    · rw [List.mem_singleton.1 hch]
      exact hx

/-- Any all-non-whitespace pattern matching the output of URL removal
already matches its input. -/
theorem removeUrlsGo_reflect : ∀ (fuel : ℕ) (l p : List Char), l.length ≤ fuel →
    (∀ ch ∈ p, jsWhitespace ch = false) →
    matchesAt p (removeUrlsGo fuel l) = true → matchesAt p l = true := by
  intro fuel
  induction fuel with
  | zero =>
    intro l p hlen hp h
    have hnil : l = [] := List.eq_nil_of_length_eq_zero (Nat.le_zero.1 hlen)
    subst hnil
    cases p with
    | nil => rfl
    | cons a p2 => simpa [removeUrlsGo, matchesAt] using h
  | succ fuel ih =>
    intro l p hlen hp h
    cases l with
    | nil =>
      cases p with
      | nil => rfl
      | cons a p2 => simpa [removeUrlsGo, matchesAt] using h
    | cons c cs =>
      simp only [removeUrlsGo] at h
      by_cases h0 : urlMatchLen (c :: cs) = 0
      · rw [if_pos h0] at h
        cases p with
        | nil => rfl
        | cons a p2 =>
          simp only [matchesAt, Bool.and_eq_true] at h ⊢
          have hcs : cs.length ≤ fuel := by
            simp only [List.length_cons] at hlen
            omega
          exact ⟨h.1, ih cs p2 hcs
            (fun ch hch => hp ch (List.mem_cons.2 (Or.inr hch))) h.2⟩
      · rw [if_neg h0] at h
        have hdlen : ((c :: cs).drop (urlMatchLen (c :: cs))).length ≤ fuel := by
          rw [List.length_drop]
          simp only [List.length_cons] at hlen ⊢
          omega
        have hmatch := ih _ p hdlen hp h
        cases p with
        | nil => rfl
        | cons a p2 =>
          cases hd : ((c :: cs).drop (urlMatchLen (c :: cs))) with
          | nil =>
            rw [hd] at hmatch
            simp [matchesAt] at hmatch
          | cons b rest =>
            rw [hd] at hmatch
            simp only [matchesAt, Bool.and_eq_true, beq_iff_eq] at hmatch
            have hbws : jsWhitespace b = true :=
              urlMatchLen_drop_head (c :: cs) h0 b (by rw [hd]; rfl)
            have haws : jsWhitespace a = false := hp a (List.mem_cons.2 (Or.inl rfl))
            rw [hmatch.1] at haws
            rw [haws] at hbws
            cases hbws

/-- The check `noUrl` only looks at the tail after its head test. -/
theorem noUrl_tail (c : Char) (cs : List Char) (h : noUrl (c :: cs) = true) :
    noUrl cs = true := by
  simp only [noUrl, Bool.and_eq_true] at h
  exact h.2

/-- URL removal leaves no URL match anywhere in its output. -/
theorem noUrl_removeUrlsGo : ∀ (fuel : ℕ) (l : List Char), l.length ≤ fuel →
    noUrl (removeUrlsGo fuel l) = true := by
  intro fuel
  induction fuel with
  | zero =>
    intro l hlen
    have hnil : l = [] := List.eq_nil_of_length_eq_zero (Nat.le_zero.1 hlen)
    subst hnil
    rfl
  | succ fuel ih =>
    intro l hlen
    cases l with
    | nil => rfl
    | cons c cs =>
      simp only [removeUrlsGo]
      have hcs : cs.length ≤ fuel := by
        simp only [List.length_cons] at hlen
        omega
      by_cases h0 : urlMatchLen (c :: cs) = 0
      · rw [if_pos h0]
        have hzero : urlMatchLen (c :: removeUrlsGo fuel cs) = 0 :=
          urlMatch_zero_cons c cs _
            (fun p hp hm => removeUrlsGo_reflect fuel cs p hcs hp hm) h0
        simp only [noUrl, Bool.and_eq_true]
        exact ⟨by simp [hzero], ih cs hcs⟩
      · rw [if_neg h0]
        refine ih _ ?_
        rw [List.length_drop]
        simp only [List.length_cons] at hlen ⊢
        omega

/-- Absence of URL matches is preserved when dropping a leading block. -/
theorem noUrl_dropWhile (q : Char → Bool) (l : List Char) (h : noUrl l = true) :
    noUrl (l.dropWhile q) = true := by
  induction l with
  | nil => simpa using h
  | cons c cs ih =>
    rw [List.dropWhile_cons]
    by_cases hc : q c = true
    · rw [if_pos hc]
      exact ih (noUrl_tail _ _ h)
    · rw [if_neg hc]
      exact h

/-- Any all-non-whitespace pattern matching the output of whitespace
collapsing already matches its input. -/
theorem collapseWsGo_reflect : ∀ (fuel : ℕ) (l p : List Char), l.length ≤ fuel →
    (∀ ch ∈ p, jsWhitespace ch = false) →
    matchesAt p (collapseWsGo fuel l) = true → matchesAt p l = true := by
  intro fuel
  induction fuel with
  | zero =>
    intro l p hlen hp h
    have hnil : l = [] := List.eq_nil_of_length_eq_zero (Nat.le_zero.1 hlen)
    subst hnil
    cases p with
    | nil => rfl
    | cons a p2 => simpa [collapseWsGo, matchesAt] using h
  | succ fuel ih =>
    intro l p hlen hp h
    cases l with
    | nil =>
      cases p with
      | nil => rfl
      | cons a p2 => simpa [collapseWsGo, matchesAt] using h
    | cons c cs =>
      simp only [collapseWsGo] at h
      have hcs : cs.length ≤ fuel := by
        simp only [List.length_cons] at hlen
        omega
      by_cases hc : jsWhitespace c = true
      · rw [if_pos hc] at h
        cases p with
        | nil => rfl
        | cons a p2 =>
          simp only [matchesAt, Bool.and_eq_true, beq_iff_eq] at h
          have haws : jsWhitespace a = false := hp a (List.mem_cons.2 (Or.inl rfl))
          rw [h.1] at haws
          exact absurd haws (by decide)
      · rw [if_neg hc] at h
        cases p with
        | nil => rfl
        | cons a p2 =>
          simp only [matchesAt, Bool.and_eq_true] at h ⊢
          exact ⟨h.1, ih cs p2 hcs
            (fun ch hch => hp ch (List.mem_cons.2 (Or.inr hch))) h.2⟩

/-- Whitespace collapsing preserves the absence of URL matches. -/
theorem noUrl_collapseWsGo : ∀ (fuel : ℕ) (l : List Char), l.length ≤ fuel →
    noUrl l = true → noUrl (collapseWsGo fuel l) = true := by
  intro fuel
  induction fuel with
  | zero =>
    intro l hlen _
    have hnil : l = [] := List.eq_nil_of_length_eq_zero (Nat.le_zero.1 hlen)
    subst hnil
    rfl
  | succ fuel ih =>
    intro l hlen h
    cases l with
    | nil => rfl
    | cons c cs =>
      simp only [collapseWsGo]
      have hcs : cs.length ≤ fuel := by
        simp only [List.length_cons] at hlen
        omega
      by_cases hc : jsWhitespace c = true
      · rw [if_pos hc]
        have hdw : (cs.dropWhile jsWhitespace).length ≤ fuel :=
          le_trans (List.dropWhile_sublist _).length_le hcs
        have hnu : noUrl (cs.dropWhile jsWhitespace) = true :=
          noUrl_dropWhile _ _ (noUrl_tail _ _ h)
        simp only [noUrl, Bool.and_eq_true]
        refine ⟨?_, ih _ hdw hnu⟩
        simp [urlMatchLen_ws_head ' ' _ (by decide)]
      · rw [if_neg hc]
        have h0 : urlMatchLen (c :: cs) = 0 := by
          simp only [noUrl, Bool.and_eq_true] at h
          simpa using h.1
        have hzero : urlMatchLen (c :: collapseWsGo fuel cs) = 0 :=
          urlMatch_zero_cons c cs _
            (fun p hp hm => collapseWsGo_reflect fuel cs p hcs hp hm) h0
        simp only [noUrl, Bool.and_eq_true]
        exact ⟨by simp [hzero], ih cs hcs (noUrl_tail _ _ h)⟩

/-- Unfold `noDoubleWs` over a cons cell. -/
theorem noDoubleWs_cons (a : Char) (t : List Char) :
    noDoubleWs (a :: t) = true ↔
      ((∀ b, t.head? = some b → (jsWhitespace a && jsWhitespace b) = false) ∧
        noDoubleWs t = true) := by
  cases t with
  | nil => simp [noDoubleWs]
  | cons b t2 =>
    simp only [noDoubleWs, Bool.and_eq_true, Bool.not_eq_true', List.head?_cons]
    constructor
    · rintro ⟨h1, h2⟩
      exact ⟨fun b2 hb2 => by rw [← Option.some_inj.1 hb2]; exact h1, h2⟩
    · rintro ⟨h1, h2⟩
      exact ⟨h1 b rfl, h2⟩

/-- Absence of adjacent whitespace restricted to the tail. -/
theorem noDoubleWs_tail (a : Char) (t : List Char)
    (h : noDoubleWs (a :: t) = true) : noDoubleWs t = true :=
  ((noDoubleWs_cons a t).1 h).2

/-- Whitespace collapsing keeps a non-whitespace head non-whitespace. -/
theorem collapseWsGo_head_nonws (fuel : ℕ) (m : List Char) (hlen : m.length ≤ fuel)
    (hhead : ∀ b, m.head? = some b → jsWhitespace b = false)
    (b2 : Char) (hb2 : (collapseWsGo fuel m).head? = some b2) :
    jsWhitespace b2 = false := by
  cases fuel with
  | zero =>
    have hnil : m = [] := List.eq_nil_of_length_eq_zero (Nat.le_zero.1 hlen)
    subst hnil
    simp [collapseWsGo] at hb2
  | succ fuel =>
    cases m with
    | nil => simp [collapseWsGo] at hb2
    | cons c cs =>
      have hc : jsWhitespace c = false := hhead c rfl
      simp only [collapseWsGo] at hb2
      rw [if_neg (by simp [hc])] at hb2
      simp only [List.head?_cons, Option.some_inj] at hb2
      rw [← hb2]
      exact hc

/-- The output of whitespace collapsing has no two adjacent whitespace
characters. -/
theorem noDoubleWs_collapseWsGo : ∀ (fuel : ℕ) (l : List Char), l.length ≤ fuel →
    noDoubleWs (collapseWsGo fuel l) = true := by
  intro fuel
  induction fuel with
  | zero =>
    intro l hlen
    have hnil : l = [] := List.eq_nil_of_length_eq_zero (Nat.le_zero.1 hlen)
    subst hnil
    rfl
  | succ fuel ih =>
    intro l hlen
    cases l with
    | nil => rfl
    | cons c cs =>
      simp only [collapseWsGo]
      have hcs : cs.length ≤ fuel := by
        simp only [List.length_cons] at hlen
        omega
      by_cases hc : jsWhitespace c = true
      · rw [if_pos hc]
        have hmlen : (cs.dropWhile jsWhitespace).length ≤ fuel :=
          le_trans (List.dropWhile_sublist _).length_le hcs
        rw [noDoubleWs_cons]
        refine ⟨?_, ih _ hmlen⟩
        intro b hb
        have hbn : jsWhitespace b = false :=
          collapseWsGo_head_nonws fuel _ hmlen
            (fun b2 hb2 => head?_dropWhile_false _ _ _ hb2) b hb
        simp [hbn]
      · rw [if_neg hc]
        rw [noDoubleWs_cons]
        refine ⟨?_, ih cs hcs⟩
        intro b hb
        have hc2 : jsWhitespace c = false := by simpa using hc
        simp [hc2]

/-- With no two adjacent whitespace characters there is no newline run
of length two, so newline collapsing is the identity. -/
theorem collapseNlGo_eq_self : ∀ (fuel : ℕ) (l : List Char), l.length ≤ fuel →
    noDoubleWs l = true → collapseNlGo fuel l = l := by
  intro fuel
  induction fuel with
  | zero => intro l _ _; rfl
  | succ fuel ih =>
    intro l hlen h
    cases l with
    | nil => rfl
    | cons c cs =>
      simp only [collapseNlGo]
      have hcs : cs.length ≤ fuel := by
        simp only [List.length_cons] at hlen
        omega
      by_cases hc : (c == '\n') = true
      · rw [if_pos hc]
        have hceq : c = '\n' := beq_iff_eq.1 hc
        have hdw : cs.dropWhile (· == '\n') = cs := by
          cases cs with
          | nil => rfl
          | cons b t =>
            rw [List.dropWhile_cons]
            have hb : ¬ ((b == '\n') = true) := by
              intro hbeq
              have hbeq2 : b = '\n' := beq_iff_eq.1 hbeq
              rcases (noDoubleWs_cons c (b :: t)).1 h with ⟨h1, _⟩
              have h2 := h1 b rfl
              rw [hceq, hbeq2] at h2
              exact absurd h2 (by decide)
            rw [if_neg hb]
        rw [hdw, ih cs hcs (noDoubleWs_tail _ _ h), hceq]
      · rw [if_neg hc, ih cs hcs (noDoubleWs_tail _ _ h)]

/-- Absence of URL matches survives dropping a leading block. -/
theorem noUrl_append_left (s t : List Char) (h : noUrl (s ++ t) = true) :
    noUrl t = true := by
  induction s with
  | nil => simpa using h
  | cons c s ih =>
    exact ih (noUrl_tail _ _ (by simpa using h))

/-- A URL match survives extending the text on the right. -/
theorem urlMatchLen_append_ne (m t : List Char) (h : urlMatchLen m ≠ 0) :
    urlMatchLen (m ++ t) ≠ 0 := by
  rw [urlMatchLen_ne_zero_iff] at h ⊢
  rcases h with ⟨x, hx, hor | hor⟩
  · exact ⟨x, hx, Or.inl (matchesAt_append_right _ _ _ hor)⟩
  · exact ⟨x, hx, Or.inr (matchesAt_append_right _ _ _ hor)⟩

/-- Absence of URL matches survives dropping a trailing block. -/
theorem noUrl_append_right (m t : List Char) (h : noUrl (m ++ t) = true) :
    noUrl m = true := by
  induction m with
  | nil => rfl
  | cons c m ih =>
    have h2 : noUrl (c :: (m ++ t)) = true := by simpa using h
    simp only [noUrl, Bool.and_eq_true] at h2 ⊢
    refine ⟨?_, ih h2.2⟩
    by_contra hq
    have hne : urlMatchLen (c :: m) ≠ 0 := by
      intro h0
      apply hq
      simp [h0]
    have := urlMatchLen_append_ne (c :: m) t hne
    rw [List.cons_append] at this
    have h1 : urlMatchLen (c :: (m ++ t)) = 0 := by simpa using h2.1
    exact this h1

/-- Absence of adjacent whitespace survives dropping a leading block. -/
theorem noDoubleWs_append_left (s t : List Char)
    (h : noDoubleWs (s ++ t) = true) : noDoubleWs t = true := by
  induction s with
  | nil => simpa using h
  | cons c s ih =>
    exact ih (noDoubleWs_tail _ _ (by simpa using h))

/-- Absence of adjacent whitespace survives dropping a trailing block. -/
theorem noDoubleWs_append_right (m t : List Char)
    (h : noDoubleWs (m ++ t) = true) : noDoubleWs m = true := by
  induction m with
  | nil => rfl
  | cons a m ih =>
    have h2 : noDoubleWs (a :: (m ++ t)) = true := by simpa using h
    rcases (noDoubleWs_cons _ _).1 h2 with ⟨h1, hrest⟩
    rw [noDoubleWs_cons]
    refine ⟨?_, ih hrest⟩
    intro b hb
    apply h1
    cases m with
    | nil => simp at hb
    | cons b0 m2 => simpa using hb

/-- C9 counterexample: a bare `http://` (no non-whitespace character
after the slashes) is not removed by the cleaner, so the cleaned text
still contains the substring `http://`. -/
theorem clean_text_keeps_bare_url :
    cleanText "see http://" = "see http://" ∧
    strIncludes (cleanText "see http://") "http://" = true :=
  ⟨by decide, by decide⟩

/-- C9 amended: for every input text the cleaned text contains no two
consecutive whitespace characters and no occurrence of `http://` or
`https://` followed by a non-whitespace character (a bare `http(s)://`
at the end of a token may survive, see the counterexample). -/
theorem clean_text_no_double_ws_no_url (s : String) :
    noDoubleWs (cleanText s).data = true ∧ noUrl (cleanText s).data = true := by
  have h1 : noUrl (removeUrls s.data) = true :=
    noUrl_removeUrlsGo (s.data).length s.data (le_refl _)
  have h2 : noUrl (collapseWs (removeUrls s.data)) = true :=
    noUrl_collapseWsGo _ _ (le_refl _) h1
  have h3 : noDoubleWs (collapseWs (removeUrls s.data)) = true :=
    noDoubleWs_collapseWsGo _ _ (le_refl _)
  have h4 : collapseNl (collapseWs (removeUrls s.data))
      = collapseWs (removeUrls s.data) :=
    collapseNlGo_eq_self _ _ (le_refl _) h3
  have hdata : (cleanText s).data
      = trimChars (collapseWs (removeUrls s.data)) := by
    simp only [cleanText, h4]
  obtain ⟨spre, hs⟩ :=
    List.dropWhile_suffix (l := collapseWs (removeUrls s.data)) jsWhitespace
  have hm2u : noUrl ((collapseWs (removeUrls s.data)).dropWhile jsWhitespace)
      = true := by
    refine noUrl_append_left spre _ ?_
    rw [hs]
    exact h2
  have hm2d : noDoubleWs ((collapseWs (removeUrls s.data)).dropWhile jsWhitespace)
      = true := by
    refine noDoubleWs_append_left spre _ ?_
    rw [hs]
    exact h3
  obtain ⟨tpost, ht⟩ :=
    List.dropWhile_suffix
      (l := ((collapseWs (removeUrls s.data)).dropWhile jsWhitespace).reverse)
      jsWhitespace
  have hpref : trimChars (collapseWs (removeUrls s.data)) ++ tpost.reverse
      = (collapseWs (removeUrls s.data)).dropWhile jsWhitespace := by
    have := congrArg List.reverse ht
    simpa [trimChars, List.reverse_append] using this
  constructor
  · rw [hdata]
    refine noDoubleWs_append_right _ tpost.reverse ?_
    rw [hpref]
    exact hm2d
  · rw [hdata]
    refine noUrl_append_right _ tpost.reverse ?_
    rw [hpref]
    exact hm2u
